import Mathlib

/-!
Shallow embedding of `trending.py` (class `trend`): an event-bucket aggregator
(`load_data`), a dense lag-vector builder plus per-item scorer (`zvalue`), a
decayed rolling z-score engine (`rolling_zscore`) and a ranking step (`calc`,
embedded as `calc'`).  Python floats are modelled as real numbers; Python's
`round` (banker's rounding) is `pyRound`; the float `-inf` sentinel is `⊥` in
`WithBot ℝ`; a Python statement that can raise is modelled with `Option`
(`none` = exception).  Timestamps enter the source only through the signed
day-difference to the wall-clock date (line 57), so an event's timestamp is
modelled as its integer day number and the ambient clock as an explicit `now`
day-number parameter.
-/

namespace Trending

/-- Interaction event: one CSV row.  Only `item_id`, `user_id` and the
timestamp (as an integer day number) are consumed by the pipeline. -/
structure Event where
  item : ℕ
  user : ℕ
  time : ℤ
  deriving DecidableEq, Repr

/-- One row of the grouped dataframe `df_group` built on line 59 of the
source: a `(item_id, lag)` key with the value the pandas `count()`
aggregation stored under the column name `user_count`. -/
structure Row where
  item : ℕ
  lag : ℤ
  user_count : ℕ
  deriving DecidableEq, Repr

/-- The fields that `trend.load_data` stores on `self` (lines 58-62):
`max_length`, the grouped table `data`, and `item_list`. -/
structure LoadedState where
  max_length : ℤ
  data : List Row
  item_list : List ℕ
  deriving DecidableEq, Repr

/-- Line 57: `((timestamp - now.date()).dt.days / int_days).astype(int)`.
The float division followed by `astype(int)` truncates toward zero, which on
integer day differences is `Int.tdiv` (T-division). -/
def lagOf (now interval : ℤ) (e : Event) : ℤ :=
  Int.tdiv (e.time - now) interval

/-- The `(item_id, diff)` key of each event, in event order. -/
def pairsOf (events : List Event) (now interval : ℤ) : List (ℕ × ℤ) :=
  events.map fun e => (e.item, lagOf now interval e)

/-- Lexicographic order on group keys: pandas `groupby` sorts the group keys
ascending by `(item_id, diff)`. -/
def keyRel (a b : ℕ × ℤ) : Prop :=
  a.1 < b.1 ∨ (a.1 = b.1 ∧ a.2 ≤ b.2)

instance : DecidableRel keyRel := fun a b => by
  unfold keyRel; exact inferInstance

/-- The distinct `(item_id, diff)` keys in ascending order, as produced by
`data.groupby([item_col, 'diff'])`. -/
def groupKeys (ps : List (ℕ × ℤ)) : List (ℕ × ℤ) :=
  List.insertionSort keyRel ps.dedup

/-- Pandas `Series.min()`: `none` on an empty column (pandas yields `NaN`
there; the pipeline only consumes the value when the dataset is nonempty). -/
def listMin : List ℤ → Option ℤ
  | [] => none
  | a :: rest => some (rest.foldl min a)

/-- Lines 53-62 of the source (`trend.load_data`) minus the CSV/timestamp
parsing, which the spec treats as an external collaborator.  `now` is the
wall-clock date `pd.datetime.now().date()` read on line 57, threaded here as
an explicit parameter of the model.  `max_length = -data['diff'].min()`
(line 58); `data` is the grouped count table (line 59); `item_list` is the
first-occurrence list of item ids of the grouped table (line 60).  The
pre-sort by `interaction_time` on line 55 affects neither the group keys
(sorted by `groupby`), nor the counts, nor the minimum, so it is dropped. -/
def load_data (events : List Event) (now interval : ℤ) : LoadedState :=
  let ps := pairsOf events now interval
  { max_length := -((listMin (ps.map Prod.snd)).getD 0)
    data := (groupKeys ps).map fun k => { item := k.1, lag := k.2, user_count := ps.count k }
    item_list := ((groupKeys ps).map fun k => k.1).dedup }

/-- Number of distinct users interacting with `item` in bucket `bucket`
(what the spec says line 59 computes; the source's `count()` is a raw row
count, `nunique()` would be this). -/
def distinct_user_count (events : List Event) (now interval : ℤ) (item : ℕ) (bucket : ℤ) : ℕ :=
  ((events.filter fun e => e.item = item ∧ lagOf now interval e = bucket).map
    fun e => e.user).dedup.length

open scoped Classical in
/-- Python 3 `round` to an integer: round half to even (banker's rounding). -/
noncomputable def pyRound (x : ℝ) : ℤ :=
  if Int.fract x < 1 / 2 then ⌊x⌋
  else if 1 / 2 < Int.fract x then ⌈x⌉
  else if Even ⌊x⌋ then ⌊x⌋ else ⌊x⌋ + 1

/-- Lines 130-133 (`add_to_history`): one decayed update of the running mean
and running mean of squares. -/
def add_to_history (decay point average sq_average : ℝ) : ℝ × ℝ :=
  (average * decay + point * (1 - decay), sq_average * decay + point ^ 2 * (1 - decay))

/-- Lines 135-139 (`calculate_zscore`).  The body reads the free variable
`avg` of the enclosing `rolling_zscore` scope in the `std` formula and the
parameter `average` in the numerator; Python closures are late-binding, so at
each call `avg` denotes the current value of the enclosing variable.  The
first argument `avg` is that captured variable, the second is the parameter
`average`; every call site passes the same current running mean for both. -/
noncomputable def calculate_zscore (avg average sq_average value : ℝ) : ℝ :=
  let std : ℤ := pyRound (Real.sqrt (sq_average - avg ^ 2))
  if std = 0 then value - average else (value - average) / (std : ℝ)

/-- Lines 141-142: fold `add_to_history` over the remaining history points. -/
def histFold (decay : ℝ) : ℝ × ℝ → List ℝ → ℝ × ℝ
  | st, [] => st
  | st, point :: rest => histFold decay (add_to_history decay point st.1 st.2) rest

/-- Lines 146-148: score each observed point against the current state, then
absorb it into the running statistics. -/
noncomputable def observedTrends (decay : ℝ) : ℝ × ℝ → List ℝ → List ℝ
  | _, [] => []
  | st, point :: rest =>
      calculate_zscore st.1 st.1 st.2 point ::
        observedTrends decay (add_to_history decay point st.1 st.2) rest

/-- The `(avg, squared_average)` state at each `calculate_zscore` call of the
observed loop (lines 146-148), in call order. -/
def observedStates (decay : ℝ) : ℝ × ℝ → List ℝ → List (ℝ × ℝ)
  | _, [] => []
  | st, point :: rest => st :: observedStates decay (add_to_history decay point st.1 st.2) rest

/-- Lines 121-150 (`trend.rolling_zscore`): seed the running statistics from
`data[0]` (lines 128-129), fold the rest of the history (lines 141-142),
score the observed window (lines 146-148), and return the mean per-point
z-score, or `0` for an empty window (line 150). -/
noncomputable def rolling_zscore (data observed_window : List ℝ) (decay : ℝ) : ℝ :=
  let st := histFold decay (data.headI, data.headI ^ 2) data.tail
  let trends := observedTrends decay st observed_window
  if trends.length ≠ 0 then trends.sum / (trends.length : ℝ) else 0

/-- Engine as described by claim C1's reading of the source: the `std`
subtrahend is always the square of the seed `data[0]`, as if the closure had
captured `avg` by value at definition time. -/
noncomputable def observedTrendsSeed (decay seed : ℝ) : ℝ × ℝ → List ℝ → List ℝ
  | _, [] => []
  | st, point :: rest =>
      calculate_zscore seed st.1 st.2 point ::
        observedTrendsSeed decay seed (add_to_history decay point st.1 st.2) rest

/-- Variant of `rolling_zscore` with the variance computed against the seed
value `data[0]` at every observed point (claim C1's reading). -/
noncomputable def rolling_zscore_seed_std (data observed_window : List ℝ) (decay : ℝ) : ℝ :=
  let st := histFold decay (data.headI, data.headI ^ 2) data.tail
  let trends := observedTrendsSeed decay data.headI st observed_window
  if trends.length ≠ 0 then trends.sum / (trends.length : ℝ) else 0

/-- Per-point z-score written directly against the current running mean: the
`std` subtrahend is the square of the `average` parameter itself. -/
noncomputable def calculate_zscore_current (average sq_average value : ℝ) : ℝ :=
  let std : ℤ := pyRound (Real.sqrt (sq_average - average ^ 2))
  if std = 0 then value - average else (value - average) / (std : ℝ)

/-- Observed loop built from `calculate_zscore_current`. -/
noncomputable def observedTrendsCurrent (decay : ℝ) : ℝ × ℝ → List ℝ → List ℝ
  | _, [] => []
  | st, point :: rest =>
      calculate_zscore_current st.1 st.2 point ::
        observedTrendsCurrent decay (add_to_history decay point st.1 st.2) rest

/-- Variant of `rolling_zscore` with the variance computed against the
current decayed running mean at every observed point. -/
noncomputable def rolling_zscore_current_std (data observed_window : List ℝ) (decay : ℝ) : ℝ :=
  let st := histFold decay (data.headI, data.headI ^ 2) data.tail
  let trends := observedTrendsCurrent decay st observed_window
  if trends.length ≠ 0 then trends.sum / (trends.length : ℝ) else 0

/-- Python list assignment `l[i] = v`: indices `0 ≤ i < len` write directly,
`-len ≤ i < 0` wrap around, anything else raises `IndexError` (`none`). -/
def pySet (l : List ℝ) (i : ℤ) (v : ℝ) : Option (List ℝ) :=
  if 0 ≤ i ∧ i < (l.length : ℤ) then some (l.set i.toNat v)
  else if -(l.length : ℤ) ≤ i ∧ i < 0 then some (l.set (i + (l.length : ℤ)).toNat v)
  else none

/-- Line 93-94: the sequential `vec[i] = value[j]` loop; the first failing
write aborts with `IndexError`. -/
def writeAll (l : List ℝ) : List (ℤ × ℝ) → Option (List ℝ)
  | [] => some l
  | w :: ws =>
      match pySet l w.1 w.2 with
      | none => none
      | some l' => writeAll l' ws

/-- Lines 86 and 91-94: allocate `vec = [0]*(length+1)` and write each
filtered row's `user_count` at position `length + lag`.  Python `[0]*(n)` is
empty for `n ≤ 0`, matching `Int.toNat`. -/
def buildVec (df : List Row) (item : ℕ) (length : ℤ) : Option (List ℝ) :=
  let f := df.filter fun r => r.item = item
  writeAll (List.replicate (length + 1).toNat (0 : ℝ))
    ((f.map fun r => length + r.lag).zip (f.map fun r => (r.user_count : ℝ)))

/-- Lines 78-96 (`trend.zvalue`): an item whose filtered group table has
exactly one row gets the float `-inf` sentinel (line 89), modelled as `⊥`;
otherwise the dense vector is built and split into `vec[:-1]` and `vec[-1:]`
and handed to the engine (line 95). -/
noncomputable def zvalue (df : List Row) (item : ℕ) (length : ℤ) (decay : ℝ) :
    Option (WithBot ℝ) :=
  if (df.filter fun r => r.item = item).length = 1 then some ⊥
  else
    match buildVec df item length with
    | none => none
    | some vec =>
        some ↑(rolling_zscore vec.dropLast (vec.drop (vec.length - 1)) decay)

/-- Lines 70-73: the per-item scoring loop of `trend.calc`; an exception
raised by `zvalue` propagates. -/
noncomputable def scoreAll (df : List Row) (length : ℤ) (decay : ℝ) :
    List ℕ → Option (List (ℕ × WithBot ℝ))
  | [] => some []
  | i :: rest =>
      match zvalue df i length decay, scoreAll df length decay rest with
      | some z, some l => some ((i, z) :: l)
      | _, _ => none

/-- Descending order on `(item, trending_score)` records used by
`sort_values("trending_score", ascending=False)` on line 75. -/
def scoreRel (a b : ℕ × WithBot ℝ) : Prop :=
  b.2 ≤ a.2

noncomputable instance : DecidableRel scoreRel := fun _ _ =>
  Classical.dec _

instance : IsTotal (ℕ × WithBot ℝ) scoreRel :=
  ⟨fun a b => le_total b.2 a.2⟩

instance : IsTrans (ℕ × WithBot ℝ) scoreRel :=
  ⟨fun _ _ _ hab hbc => le_trans hbc hab⟩

/-- A sort of the score table into descending score order (ties in an
unspecified order: the source's quicksort is unstable, and no claim depends
on the tie order). -/
noncomputable def sortDesc (l : List (ℕ × WithBot ℝ)) : List (ℕ × WithBot ℝ) :=
  List.insertionSort scoreRel l

/-- Lines 65-76 (`trend.calc`): score every item, then sort descending by
score.  On an empty dataset `df_trend` is the empty list, so
`pd.DataFrame([])` has no columns and `sort_values("trending_score")` raises
`KeyError` — the `some [] => none` arm. -/
noncomputable def calc' (events : List Event) (now interval : ℤ) (decay : ℝ) :
    Option (List (ℕ × WithBot ℝ)) :=
  let st := load_data events now interval
  match scoreAll st.data st.max_length decay st.item_list with
  | none => none
  | some [] => none
  | some scored => some (sortDesc scored)

/-- The configuration object a successful `trend.__init__` (lines 46-49)
produces: `self.max_length = None`, `self.decay`, `self.int_days`. -/
structure TrendConfig where
  max_length : Option ℤ
  decay : ℝ
  int_days : ℤ

/-- Lines 46-49 (`trend.__init__`).  A Python constructor may raise, so the
embedding returns `Option`; this constructor only stores its arguments and
never raises, hence always `some`. -/
def trendInit (decay : ℝ) (interval_days : ℤ) : Option TrendConfig :=
  some { max_length := none, decay := decay, int_days := interval_days }

/-- Shift an event's timestamp by `s` days (used to relate runs of the
pipeline executed at different wall-clock dates). -/
def shiftEvent (s : ℤ) (e : Event) : Event :=
  { e with time := e.time + s }

/-- Dataset with one user producing two events for the same item and
bucket. -/
def exDupUser : List Event := [⟨1, 7, 0⟩, ⟨1, 7, 0⟩]

/-- Dataset where item 1 has a single aggregated point and item 2 has two. -/
def exSentinel : List Event := [⟨1, 1, 0⟩, ⟨2, 1, 0⟩, ⟨2, 1, -8⟩]

/-- Dataset whose aggregation changes shape with the wall-clock date. -/
def exClock : List Event := [⟨1, 1, -1⟩, ⟨1, 2, -6⟩]

/-- Dataset with an event 40 days after the reference day. -/
def exFuture : List Event := [⟨1, 1, -10⟩, ⟨1, 2, 40⟩]

/-- Dataset entirely in the past relative to reference day 0. -/
def exPast : List Event := [⟨1, 1, -8⟩, ⟨1, 1, 0⟩]

/-! Helper lemmas about `pyRound`. -/

/-- Values in `[n, n + 1/2)` round to `n`. -/
theorem pyRound_eq_of (n : ℤ) (x : ℝ) (h1 : (n : ℝ) ≤ x) (h2 : x < (n : ℝ) + 1 / 2) :
    pyRound x = n := by
  have hfl : ⌊x⌋ = n := Int.floor_eq_iff.mpr ⟨h1, by linarith⟩
  have hfr : Int.fract x < 1 / 2 := by
    rw [Int.fract, hfl]; linarith
  rw [pyRound, if_pos hfr, hfl]

/-- Integers round to themselves. -/
theorem pyRound_intCast (n : ℤ) : pyRound (n : ℝ) = n :=
  pyRound_eq_of n _ le_rfl (by norm_num)

/-- Zero rounds to zero. -/
theorem pyRound_zero : pyRound 0 = 0 := by
  simpa using pyRound_intCast 0

/-- Rounding a nonnegative real is nonnegative. -/
theorem pyRound_nonneg (x : ℝ) (h : 0 ≤ x) : 0 ≤ pyRound x := by
  have hf : 0 ≤ ⌊x⌋ := Int.floor_nonneg.mpr h
  rw [pyRound]
  split_ifs
  · exact hf
  · exact le_trans hf (Int.floor_le_ceil x)
  · exact hf
  · omega

/-! Helper lemmas about the z-score engine. -/

/-- With the state fixed, the per-point z-score is strictly increasing in the
observed value: `std` does not depend on the value, is nonnegative because it
rounds a square root, and in the division branch it is a positive integer. -/
theorem calculate_zscore_strictMono (avg average s : ℝ) {v1 v2 : ℝ} (h : v1 < v2) :
    calculate_zscore avg average s v1 < calculate_zscore avg average s v2 := by
  unfold calculate_zscore
  by_cases h0 : pyRound (Real.sqrt (s - avg ^ 2)) = 0
  · simp only [h0, if_pos]
    simp
    linarith
  · simp only [if_neg h0]
    have hnn : 0 ≤ pyRound (Real.sqrt (s - avg ^ 2)) :=
      pyRound_nonneg _ (Real.sqrt_nonneg _)
    have hpos : (0 : ℝ) < (pyRound (Real.sqrt (s - avg ^ 2)) : ℝ) := by
      exact_mod_cast lt_of_le_of_ne hnn (Ne.symm h0)
    exact (div_lt_div_iff_of_pos_right hpos).mpr (by linarith)

/-- On a size-1 observed window the engine returns the single per-point
z-score taken at the post-history state. -/
theorem rolling_zscore_singleton (data : List ℝ) (v decay : ℝ) :
    rolling_zscore data [v] decay =
      calculate_zscore (histFold decay (data.headI, data.headI ^ 2) data.tail).1
        (histFold decay (data.headI, data.headI ^ 2) data.tail).1
        (histFold decay (data.headI, data.headI ^ 2) data.tail).2 v := by
  simp [rolling_zscore, observedTrends]

/-- The observed loop of the source equals the loop written directly against
the current running mean: at each call the captured `avg` and the parameter
`average` hold the same value. -/
theorem observedTrends_eq_current (decay : ℝ) :
    ∀ (w : List ℝ) (st : ℝ × ℝ),
      observedTrends decay st w = observedTrendsCurrent decay st w := by
  intro w
  induction w with
  | nil => intro st; rfl
  | cons p rest ih =>
      intro st
      simp only [observedTrends, observedTrendsCurrent, ih]
      rfl

/-- A constant history is a fixed point of the decayed update. -/
theorem histFold_const (decay c : ℝ) :
    ∀ l : List ℝ, (∀ x ∈ l, x = c) → histFold decay (c, c ^ 2) l = (c, c ^ 2) := by
  intro l
  induction l with
  | nil => intro _; rfl
  | cons p rest ih =>
      intro h
      have hp : p = c := h p (List.mem_cons_self _ _)
      have hstep : add_to_history decay p c (c ^ 2) = (c, c ^ 2) := by
        rw [hp]; unfold add_to_history; rw [Prod.mk.injEq]; constructor <;> ring
      simp only [histFold, hstep]
      exact ih fun x hx => h x (List.mem_cons_of_mem _ hx)

/-- Constant history `c` leaves the running state at `(c, c^2)`, and scoring
the observed value `c` against it gives exactly `0`. -/
theorem histFold_rolling_const (c decay : ℝ) (data : List ℝ)
    (hne : data ≠ []) (hc : ∀ x ∈ data, x = c) :
    histFold decay (data.headI, data.headI ^ 2) data.tail = (c, c ^ 2) ∧
      rolling_zscore data [c] decay = 0 := by
  obtain ⟨a, t, rfl⟩ := List.exists_cons_of_ne_nil hne
  have ha : a = c := hc a (List.mem_cons_self _ _)
  have ht : ∀ x ∈ t, x = c := fun x hx => hc x (List.mem_cons_of_mem _ hx)
  have hfold : histFold decay (c, c ^ 2) t = (c, c ^ 2) := histFold_const decay c t ht
  constructor
  · simp only [List.headI_cons, List.tail_cons, ha]
    exact hfold
  · rw [rolling_zscore_singleton]
    simp only [List.headI_cons, List.tail_cons, ha, hfold]
    simp [calculate_zscore, sub_self, Real.sqrt_zero, pyRound_zero]

/-- Specialisation used by concrete pipeline runs: a one-point history equal
to the observed value scores `0`. -/
theorem rolling_zscore_const_one (x decay : ℝ) : rolling_zscore [x] [x] decay = 0 :=
  (histFold_rolling_const x decay [x] (by simp) (by intro y hy; simpa using hy)).2

/-- One decayed update preserves `avg^2 ≤ sq_avg` when `decay ∈ [0, 1]`
(Cauchy-Schwarz for the two-point convex combination). -/
theorem add_to_history_inv (decay p a s : ℝ) (h : a ^ 2 ≤ s)
    (h0 : 0 ≤ decay) (h1 : decay ≤ 1) :
    (add_to_history decay p a s).1 ^ 2 ≤ (add_to_history decay p a s).2 := by
  unfold add_to_history
  dsimp only
  nlinarith [mul_nonneg (mul_nonneg h0 (sub_nonneg.mpr h1)) (sq_nonneg (a - p)),
    mul_le_mul_of_nonneg_right h h0]

/-- Folding the history preserves `avg^2 ≤ sq_avg`. -/
theorem histFold_inv (decay : ℝ) (h0 : 0 ≤ decay) (h1 : decay ≤ 1) :
    ∀ (l : List ℝ) (st : ℝ × ℝ), st.1 ^ 2 ≤ st.2 →
      (histFold decay st l).1 ^ 2 ≤ (histFold decay st l).2 := by
  intro l
  induction l with
  | nil => intro st h; exact h
  | cons p rest ih =>
      intro st h
      exact ih _ (add_to_history_inv decay p st.1 st.2 h h0 h1)

/-- Every state at which the observed loop evaluates a z-score satisfies
`avg^2 ≤ sq_avg`, so the argument of `sqrt` is never negative. -/
theorem observedStates_inv (decay : ℝ) (h0 : 0 ≤ decay) (h1 : decay ≤ 1) :
    ∀ (w : List ℝ) (st : ℝ × ℝ), st.1 ^ 2 ≤ st.2 →
      ∀ s ∈ observedStates decay st w, s.1 ^ 2 ≤ s.2 := by
  intro w
  induction w with
  | nil => intro st _ s hs; simp [observedStates] at hs
  | cons p rest ih =>
      intro st h s hs
      rw [observedStates, List.mem_cons] at hs
      rcases hs with rfl | hs
      · exact h
      · exact ih _ (add_to_history_inv decay p st.1 st.2 h h0 h1) s hs

/-! Concrete evaluations of the engine used by the claim-C1 and claim-C5
counterexamples. -/

/-- History `[0, 10]` with decay `1/10` folds to the state `(9, 90)`. -/
theorem histFold_eval :
    histFold (1 / 10) (([(0 : ℝ), 10]).headI, ([(0 : ℝ), 10]).headI ^ 2)
      ([(0 : ℝ), 10]).tail = (9, 90) := by
  norm_num [histFold, add_to_history]

/-- With the current running mean `9`, the source's variance term is
`90 - 81 = 9`, whose square root rounds to `3`. -/
theorem sqrt_nine_round : pyRound (Real.sqrt ((90 : ℝ) - 9 ^ 2)) = 3 := by
  rw [show (90 : ℝ) - 9 ^ 2 = 3 ^ 2 by norm_num, Real.sqrt_sq (by norm_num : (0 : ℝ) ≤ 3)]
  simpa using pyRound_intCast 3

/-- With the seed mean `0`, the claimed variance term is `90`, whose square
root rounds to `9`. -/
theorem sqrt_ninety_round : pyRound (Real.sqrt ((90 : ℝ) - 0 ^ 2)) = 9 := by
  rw [show (90 : ℝ) - 0 ^ 2 = 90 by norm_num]
  refine pyRound_eq_of 9 _ ?_ ?_
  · exact (Real.le_sqrt' (by norm_num)).mpr (by norm_num)
  · exact (Real.sqrt_lt' (by norm_num)).mpr (by norm_num)

/-- The source engine on history `[0, 10]`, window `[10]`, decay `1/10`:
`std = round(sqrt(90 - 9^2)) = 3` and the score is `(10 - 9)/3 = 1/3`. -/
theorem rolling_zscore_eval :
    rolling_zscore [(0 : ℝ), 10] [10] (1 / 10) = 1 / 3 := by
  rw [rolling_zscore_singleton, histFold_eval]
  simp only [calculate_zscore]
  rw [sqrt_nine_round]
  norm_num

/-- The seed-variance engine on the same input:
`std = round(sqrt(90 - 0^2)) = 9` and the score is `(10 - 9)/9 = 1/9`. -/
theorem rolling_zscore_seed_eval :
    rolling_zscore_seed_std [(0 : ℝ), 10] [10] (1 / 10) = 1 / 9 := by
  unfold rolling_zscore_seed_std
  rw [histFold_eval]
  simp only [List.headI_cons, observedTrendsSeed, calculate_zscore]
  rw [sqrt_ninety_round]
  norm_num

/-- Run at reference day 0: both events of `exClock` land in bucket 0, item 1
has a single aggregated point and is scored with the sentinel. -/
theorem calc_exClock_at_0 : calc' exClock 0 7 (1 / 10) = some [(1, ⊥)] :=
  rfl

/-- Scoring item 1 of the day-3 aggregation of `exClock`: the dense vector is
`[1, 1]`, so history `[1]` and observed `[1]` give the score `0`. -/
theorem zvalue_exClock_at_3 :
    zvalue [(⟨1, -1, 1⟩ : Row), ⟨1, 0, 1⟩] 1 1 (1 / 10) = some ((0 : ℝ) : WithBot ℝ) := by
  have hbv : buildVec [(⟨1, -1, 1⟩ : Row), ⟨1, 0, 1⟩] 1 1 =
      some [((1 : ℕ) : ℝ), ((1 : ℕ) : ℝ)] := rfl
  rw [zvalue, if_neg (by decide), hbv]
  norm_num [rolling_zscore_const_one]

/-- Run at reference day 3: the same events of `exClock` split into two
buckets and item 1 obtains the finite score `0`. -/
theorem calc_exClock_at_3 :
    calc' exClock 3 7 (1 / 10) = some [(1, ((0 : ℝ) : WithBot ℝ))] := by
  have hld : load_data exClock 3 7 = ⟨1, [⟨1, -1, 1⟩, ⟨1, 0, 1⟩], [1]⟩ := by decide
  simp only [calc', hld, scoreAll, zvalue_exClock_at_3]
  rfl

/-! Helper lemmas about the aggregation. -/

/-- The pandas group count of a key equals the number of events carrying that
`(item, bucket)` pair. -/
theorem count_pairs (now interval : ℤ) (i : ℕ) (b : ℤ) :
    ∀ events : List Event,
      (pairsOf events now interval).count (i, b) =
        (events.filter fun e => e.item = i ∧ lagOf now interval e = b).length := by
  intro events
  induction events with
  | nil => rfl
  | cons e rest ih =>
      by_cases h : e.item = i ∧ lagOf now interval e = b
      · simp only [pairsOf, List.map_cons, List.count_cons, List.filter_cons] at *
        rw [if_pos (by simpa using h)]
        simp only [h.1, h.2, ih]
        simp
      · simp only [pairsOf, List.map_cons, List.count_cons, List.filter_cons] at *
        rw [if_neg (by simpa using h)]
        have hne : ¬((e.item, lagOf now interval e) == (i, b)) = true := by
          simp only [beq_iff_eq, Prod.mk.injEq]
          exact fun hc => h ⟨hc.1, hc.2⟩
        simp only [ih, hne]
        rw [if_neg (by simpa using h)]
        simp

/-- Every row of the grouped table carries a key occurring among the event
pairs, and stores that key's pair count. -/
theorem mem_data_key (events : List Event) (now interval : ℤ) (r : Row)
    (hr : r ∈ (load_data events now interval).data) :
    (r.item, r.lag) ∈ pairsOf events now interval ∧
      r.user_count = (pairsOf events now interval).count (r.item, r.lag) := by
  simp only [load_data, List.mem_map] at hr
  obtain ⟨k, hk, hEq⟩ := hr
  have hk2 : k ∈ pairsOf events now interval := by
    have h1 : k ∈ (pairsOf events now interval).dedup :=
      (List.mem_insertionSort keyRel).mp hk
    exact List.mem_dedup.mp h1
  cases hEq
  exact ⟨hk2, rfl⟩

/-- Folding `min` never exceeds the start value. -/
theorem foldl_min_le_init : ∀ (l : List ℤ) (a : ℤ), l.foldl min a ≤ a := by
  intro l
  induction l with
  | nil => intro a; exact le_refl a
  | cons c rest ih =>
      intro a
      calc (c :: rest).foldl min a = rest.foldl min (min a c) := rfl
        _ ≤ min a c := ih _
        _ ≤ a := min_le_left _ _

/-- Folding `min` never exceeds any list element. -/
theorem foldl_min_le_mem : ∀ (l : List ℤ) (a b : ℤ), b ∈ l → l.foldl min a ≤ b := by
  intro l
  induction l with
  | nil => intro a b hb; exact absurd hb (by simp)
  | cons c rest ih =>
      intro a b hb
      rcases List.mem_cons.mp hb with rfl | hb2
      · calc (b :: rest).foldl min a = rest.foldl min (min a b) := rfl
          _ ≤ min a b := foldl_min_le_init _ _
          _ ≤ b := min_le_right _ _
      · exact ih (min a c) b hb2

/-- A `min` fold returns its start value or a list element. -/
theorem foldl_min_mem : ∀ (l : List ℤ) (a : ℤ), l.foldl min a = a ∨ l.foldl min a ∈ l := by
  intro l
  induction l with
  | nil => intro a; exact Or.inl rfl
  | cons c rest ih =>
      intro a
      rcases ih (min a c) with h | h
      · rcases min_cases a c with ⟨he, _⟩ | ⟨he, _⟩
        · exact Or.inl (by rw [List.foldl_cons, h, he])
        · exact Or.inr (by rw [List.foldl_cons, h, he]; exact List.mem_cons_self _ _)
      · exact Or.inr (List.mem_cons_of_mem _ h)

/-- `listMin` bounds every element from below. -/
theorem listMin_le (l : List ℤ) (m : ℤ) (h : listMin l = some m) : ∀ b ∈ l, m ≤ b := by
  cases l with
  | nil => intro b hb; exact absurd hb (by simp)
  | cons a rest =>
      intro b hb
      have hm : rest.foldl min a = m := by simpa [listMin] using h
      rcases List.mem_cons.mp hb with rfl | hb2
      · rw [← hm]; exact foldl_min_le_init _ _
      · rw [← hm]; exact foldl_min_le_mem _ _ _ hb2

/-- `listMin` returns an element of the list. -/
theorem listMin_mem (l : List ℤ) (m : ℤ) (h : listMin l = some m) : m ∈ l := by
  cases l with
  | nil => exact absurd h (by simp [listMin])
  | cons a rest =>
      have hm : rest.foldl min a = m := by simpa [listMin] using h
      rcases foldl_min_mem rest a with h2 | h2
      · rw [← hm, h2]; exact List.mem_cons_self _ _
      · rw [← hm]; exact List.mem_cons_of_mem _ h2

/-- `listMin` succeeds on a nonempty list. -/
theorem listMin_isSome (l : List ℤ) (h : l ≠ []) : ∃ m, listMin l = some m := by
  cases l with
  | nil => exact absurd rfl h
  | cons a rest => exact ⟨rest.foldl min a, rfl⟩

/-- If every write index is in bounds, the write loop succeeds and preserves
the vector length. -/
theorem writeAll_some :
    ∀ (ws : List (ℤ × ℝ)) (l : List ℝ),
      (∀ w ∈ ws, 0 ≤ w.1 ∧ w.1 < (l.length : ℤ)) →
      ∃ l', writeAll l ws = some l' ∧ l'.length = l.length := by
  intro ws
  induction ws with
  | nil => intro l _; exact ⟨l, rfl, rfl⟩
  | cons w rest ih =>
      intro l h
      have hw := h w (List.mem_cons_self _ _)
      have hset : pySet l w.1 w.2 = some (l.set w.1.toNat w.2) := by
        rw [pySet, if_pos hw]
      have hlen : (l.set w.1.toNat w.2).length = l.length := List.length_set _ _ _
      obtain ⟨l', hl', hlen'⟩ := ih (l.set w.1.toNat w.2)
        (fun v hv => by rw [hlen]; exact h v (List.mem_cons_of_mem _ hv))
      exact ⟨l', by rw [writeAll, hset]; exact hl', by rw [hlen', hlen]⟩

/-! Claim theorems. -/

/-- Claim C1, counterexample.  The claim states that each per-point `std`
subtracts the square of `history[0]` (the seed).  In the source, the closure
`calculate_zscore` reads the enclosing variable `avg` at call time, after it
has been updated by the history loop, so the subtracted term is the square of
the current decayed mean, not of the seed.  On history `[0, 10]`, window
`[10]`, decay `1/10` the source computes `1/3` while the claimed seed-variance
algorithm computes `1/9`. -/
theorem std_seed_counterexample :
    rolling_zscore [(0 : ℝ), 10] [10] (1 / 10) ≠
      rolling_zscore_seed_std [(0 : ℝ), 10] [10] (1 / 10) := by
  rw [rolling_zscore_eval, rolling_zscore_seed_eval]
  norm_num

/-- Claim C1, amended.  For every history, observed window and decay, the
engine equals the variant whose per-point `std` is computed against the
current decayed running mean (`std = round(sqrt(sq_avg - avg^2))` with `avg`
the value also passed as the `average` parameter), not against the seed. -/
theorem rolling_zscore_uses_current_mean (data w : List ℝ) (decay : ℝ) :
    rolling_zscore data w decay = rolling_zscore_current_std data w decay := by
  simp only [rolling_zscore, rolling_zscore_current_std, observedTrends_eq_current]

/-- Claim C2, counterexample.  The claim states the aggregated value per
`(item, bucket)` group counts distinct users.  `exDupUser` has a single user
producing two events for item 1 in bucket 0; the source's `count()` stores
`2` while the number of distinct users is `1`. -/
theorem group_count_not_distinct_users :
    (⟨1, 0, 2⟩ : Row) ∈ (load_data exDupUser 0 7).data ∧
      distinct_user_count exDupUser 0 7 1 0 = 1 ∧ ¬((2 : ℕ) = 1) := by
  refine ⟨by decide, by decide, by decide⟩

/-- Claim C2, amended.  For every event log, the value stored for an
`(item, bucket)` group is the raw event count of that group (pandas
`count()`), which is at least — and can exceed — the number of distinct
users in the group. -/
theorem group_count_eq_event_count (events : List Event) (now interval : ℤ) (r : Row)
    (hr : r ∈ (load_data events now interval).data) :
    r.user_count =
        (events.filter fun e => e.item = r.item ∧ lagOf now interval e = r.lag).length ∧
      distinct_user_count events now interval r.item r.lag ≤ r.user_count := by
  obtain ⟨_, hcount⟩ := mem_data_key events now interval r hr
  have hA : r.user_count =
      (events.filter fun e => e.item = r.item ∧ lagOf now interval e = r.lag).length := by
    rw [hcount, count_pairs]
  refine ⟨hA, ?_⟩
  rw [hA]
  unfold distinct_user_count
  calc ((events.filter fun e => e.item = r.item ∧ lagOf now interval e = r.lag).map
          fun e => e.user).dedup.length
      ≤ ((events.filter fun e => e.item = r.item ∧ lagOf now interval e = r.lag).map
          fun e => e.user).length := (List.dedup_sublist _).length_le
    _ = _ := List.length_map _ _

/-- Witness for the amended claim C2 at the row `⟨1, 0, 2⟩` of the
`exDupUser` aggregation. -/
theorem group_count_eq_event_count_witness :
    ((⟨1, 0, 2⟩ : Row) ∈ (load_data exDupUser 0 7).data) ∧
      ((⟨1, 0, 2⟩ : Row).user_count =
          (exDupUser.filter fun e => e.item = (⟨1, 0, 2⟩ : Row).item ∧
            lagOf 0 7 e = (⟨1, 0, 2⟩ : Row).lag).length ∧
        distinct_user_count exDupUser 0 7 (⟨1, 0, 2⟩ : Row).item (⟨1, 0, 2⟩ : Row).lag ≤
          (⟨1, 0, 2⟩ : Row).user_count) :=
  ⟨by decide, group_count_eq_event_count exDupUser 0 7 ⟨1, 0, 2⟩ (by decide)⟩

/-- Claim C3.  An item whose filtered group table has exactly one row is
scored with the sentinel `⊥` (the float `-inf`), and in any output table of
`calc'` (sorted descending by score) no `⊥`-scored entry precedes an entry
with a finite score: below position `j` of a `⊥` entry every entry is `⊥`. -/
theorem single_point_sentinel_ranked_last (events : List Event) (now interval : ℤ)
    (decay : ℝ) (i0 : ℕ)
    (h1 : ((load_data events now interval).data.filter fun r => r.item = i0).length = 1) :
    zvalue (load_data events now interval).data i0
        (load_data events now interval).max_length decay = some ⊥ ∧
      ∀ out, calc' events now interval decay = some out →
        ∀ (j k : Fin out.length), (j : ℕ) < (k : ℕ) →
          (out.get j).2 = ⊥ → (out.get k).2 = ⊥ := by
  constructor
  · rw [zvalue, if_pos h1]
  · intro out hout j k hjk hbot
    simp only [calc'] at hout
    cases hsc : scoreAll (load_data events now interval).data
        (load_data events now interval).max_length decay
        (load_data events now interval).item_list with
    | none => rw [hsc] at hout; exact absurd hout (by simp)
    | some scored =>
        rw [hsc] at hout
        cases scored with
        | nil => exact absurd hout (by simp)
        | cons s rest =>
            have hout2 : sortDesc (s :: rest) = out := by
              simpa using hout
            have hsorted : List.Sorted scoreRel (sortDesc (s :: rest)) :=
              List.sorted_insertionSort scoreRel (s :: rest)
            rw [hout2] at hsorted
            have hrel : scoreRel (out.get j) (out.get k) :=
              List.pairwise_iff_get.mp hsorted j k hjk
            unfold scoreRel at hrel
            rw [hbot] at hrel
            exact le_bot_iff.mp hrel

/-- Witness for claim C3 on `exSentinel`, whose item 1 has exactly one
aggregated point. -/
theorem single_point_sentinel_witness :
    (((load_data exSentinel 0 7).data.filter fun r => r.item = 1).length = 1) ∧
      (zvalue (load_data exSentinel 0 7).data 1
          (load_data exSentinel 0 7).max_length (1 / 10) = some ⊥ ∧
        ∀ out, calc' exSentinel 0 7 (1 / 10) = some out →
          ∀ (j k : Fin out.length), (j : ℕ) < (k : ℕ) →
            (out.get j).2 = ⊥ → (out.get k).2 = ⊥) :=
  ⟨by decide, single_point_sentinel_ranked_last exSentinel 0 7 (1 / 10) 1 (by decide)⟩

/-- Claim C4.  On an empty event dataset the pipeline does not return an
empty table: `df_trend` is the empty list, `pd.DataFrame([])` has no columns,
and `sort_values("trending_score")` raises `KeyError`, modelled as `none`. -/
theorem empty_dataset_calc_fails (now interval : ℤ) (decay : ℝ) :
    calc' [] now interval decay = none :=
  rfl

/-- Claim C5, counterexample.  The claim states that the output does not
depend on when the pipeline runs.  The reference instant is read from the
wall clock inside `load_data`, so the same event table `exClock` produces the
table `[(1, -inf)]` when run on day 0 and `[(1, 0)]` when run on day 3. -/
theorem wall_clock_dependence :
    calc' exClock 0 7 (1 / 10) ≠ calc' exClock 3 7 (1 / 10) := by
  rw [calc_exClock_at_0, calc_exClock_at_3]
  intro h
  simp at h

/-- Claim C5, amended.  The reference instant is the ambient wall-clock date,
an implicit input of `load_data`; timestamps enter the pipeline only through
their day-difference to it, so translating all timestamps and the clock by
the same shift leaves the output table unchanged — runs are reproducible
exactly when the captured clock date (together with table, decay and
interval) is reproduced. -/
theorem pipeline_shift_invariant (events : List Event) (s now interval : ℤ) (decay : ℝ) :
    calc' (events.map (shiftEvent s)) (now + s) interval decay =
      calc' events now interval decay := by
  have hpairs : pairsOf (events.map (shiftEvent s)) (now + s) interval =
      pairsOf events now interval := by
    simp only [pairsOf, List.map_map]
    apply List.map_congr_left
    intro e _
    simp only [Function.comp_apply, shiftEvent, lagOf]
    have harg : e.time + s - (now + s) = e.time - now := by ring
    rw [harg]
  have hld : load_data (events.map (shiftEvent s)) (now + s) interval =
      load_data events now interval := by
    simp only [load_data, hpairs]
  simp only [calc', hld]

/-- Claim C6, counterexample.  The claim states every bucket index is `≤ 0`
and every dense-vector write lands in bounds even for events timestamped
after the reference instant.  In `exFuture` the event on day 40 (reference
day 0, interval 7) gets bucket index `5 > 0`, and scoring its item attempts
the write `vec[max_length + 5]` past the end of the vector: `IndexError`,
modelled as `none`. -/
theorem future_event_out_of_bounds :
    ((1, 5) ∈ pairsOf exFuture 0 7 ∧ ¬((5 : ℤ) ≤ 0)) ∧
      zvalue (load_data exFuture 0 7).data 1
        (load_data exFuture 0 7).max_length (1 / 10) = none :=
  ⟨⟨by decide, by decide⟩, rfl⟩

/-- Claim C6, amended.  When every bucket index of the dataset is `≤ 0`
(which holds when no event is an interval or more past the reference
instant, but not for arbitrary future events), `max_length ≥ 0` and for every
item the dense-vector write loop succeeds — every write lands in bounds —
and produces a vector of length `max_length + 1`. -/
theorem lag_nonpos_writes_in_bounds (events : List Event) (now interval : ℤ)
    (hne : events ≠ []) (hle : ∀ p ∈ pairsOf events now interval, p.2 ≤ 0) :
    0 ≤ (load_data events now interval).max_length ∧
      ∀ item : ℕ, ∃ vec,
        buildVec (load_data events now interval).data item
            (load_data events now interval).max_length = some vec ∧
          (vec.length : ℤ) = (load_data events now interval).max_length + 1 := by
  have hpne : pairsOf events now interval ≠ [] := by
    cases events with
    | nil => exact absurd rfl hne
    | cons e rest => simp [pairsOf]
  have hlne : (pairsOf events now interval).map Prod.snd ≠ [] := by
    intro hc
    exact hpne (List.map_eq_nil_iff.mp hc)
  obtain ⟨m, hm⟩ := listMin_isSome _ hlne
  have hmmem := listMin_mem _ _ hm
  have hm0 : m ≤ 0 := by
    obtain ⟨p, hp, hps⟩ := List.mem_map.mp hmmem
    rw [← hps]
    exact hle p hp
  have hML : (load_data events now interval).max_length = -m := by
    simp only [load_data, hm]
    rfl
  refine ⟨by rw [hML]; omega, ?_⟩
  intro item
  have hbound : ∀ w ∈ (((load_data events now interval).data.filter
        fun r => r.item = item).map fun r =>
          (load_data events now interval).max_length + r.lag).zip
        (((load_data events now interval).data.filter fun r => r.item = item).map
          fun r => (r.user_count : ℝ)),
      0 ≤ w.1 ∧ w.1 <
        ((List.replicate ((load_data events now interval).max_length + 1).toNat
          (0 : ℝ)).length : ℤ) := by
    intro w hw
    have h1 := (List.of_mem_zip hw).1
    obtain ⟨r, hrf, hrw⟩ := List.mem_map.mp h1
    have hrdf : r ∈ (load_data events now interval).data := List.mem_of_mem_filter hrf
    obtain ⟨hkey, _⟩ := mem_data_key events now interval r hrdf
    have hlag_mem : r.lag ∈ (pairsOf events now interval).map Prod.snd :=
      List.mem_map.mpr ⟨(r.item, r.lag), hkey, rfl⟩
    have h2 : m ≤ r.lag := listMin_le _ _ hm _ hlag_mem
    have h3 : r.lag ≤ 0 := hle _ hkey
    rw [← hrw, List.length_replicate, hML]
    rw [Int.toNat_of_nonneg (by omega)]
    omega
  obtain ⟨vec, hv, hvl⟩ := writeAll_some _ _ hbound
  refine ⟨vec, ?_, ?_⟩
  · simp only [buildVec]
    exact hv
  · rw [hvl, List.length_replicate, Int.toNat_of_nonneg (by rw [hML]; omega)]

/-- Witness for the amended claim C6 on the all-past dataset `exPast`. -/
theorem lag_nonpos_writes_witness :
    (exPast ≠ [] ∧ ∀ p ∈ pairsOf exPast 0 7, p.2 ≤ 0) ∧
      (0 ≤ (load_data exPast 0 7).max_length ∧
        ∀ item : ℕ, ∃ vec,
          buildVec (load_data exPast 0 7).data item
              (load_data exPast 0 7).max_length = some vec ∧
            (vec.length : ℤ) = (load_data exPast 0 7).max_length + 1) :=
  ⟨⟨by decide, by decide⟩,
    lag_nonpos_writes_in_bounds exPast 0 7 (by decide) (by decide)⟩

/-- Claim C7.  Holding the history fixed, the score of a size-1 observed
window is strictly increasing in the observed value, in both the `std = 0`
fallback branch and the division branch. -/
theorem zscore_strict_mono (data : List ℝ) (decay : ℝ) {v1 v2 : ℝ}
    (_hne : data ≠ []) (h : v1 < v2) :
    rolling_zscore data [v1] decay < rolling_zscore data [v2] decay := by
  rw [rolling_zscore_singleton, rolling_zscore_singleton]
  exact calculate_zscore_strictMono _ _ _ h

/-- Witness for claim C7: history `[1]`, observed values `0 < 1`. -/
theorem zscore_strict_mono_witness :
    (([(1 : ℝ)] ≠ []) ∧ (0 : ℝ) < 1) ∧
      rolling_zscore [(1 : ℝ)] [0] (1 / 2) < rolling_zscore [(1 : ℝ)] [1] (1 / 2) :=
  ⟨⟨by simp, by norm_num⟩, zscore_strict_mono [(1 : ℝ)] (1 / 2) (by simp) (by norm_num)⟩

/-- Claim C8.  On a constant history `c` the running state after the history
fold is exactly `(c, c^2)`; if the single observed value is also `c`, then
`std = round(sqrt(c^2 - c^2)) = 0` and the fallback yields the score `0`. -/
theorem constant_history_zero_score (c decay : ℝ) (data : List ℝ)
    (hne : data ≠ []) (hc : ∀ x ∈ data, x = c) :
    histFold decay (data.headI, data.headI ^ 2) data.tail = (c, c ^ 2) ∧
      rolling_zscore data [c] decay = 0 :=
  histFold_rolling_const c decay data hne hc

/-- Witness for claim C8 on the constant history `[2, 2]`. -/
theorem constant_history_zero_score_witness :
    (([(2 : ℝ), 2] ≠ []) ∧ ∀ x ∈ [(2 : ℝ), 2], x = 2) ∧
      (histFold (1 / 2) (([(2 : ℝ), 2]).headI, ([(2 : ℝ), 2]).headI ^ 2)
          ([(2 : ℝ), 2]).tail = (2, 2 ^ 2) ∧
        rolling_zscore [(2 : ℝ), 2] [2] (1 / 2) = 0) :=
  ⟨⟨by simp, by intro x hx; simp at hx; simp [hx]⟩,
    constant_history_zero_score 2 (1 / 2) [(2 : ℝ), 2] (by simp)
      (by intro x hx; simp at hx; simp [hx])⟩

/-- Claim C9, counterexample.  The claim states a decay outside `(0, 1)` is
rejected at construction time.  `trend.__init__` performs no validation:
`trendInit 2 7` succeeds and stores `decay = 2`, although `2 ∉ (0, 1)`. -/
theorem init_accepts_bad_decay :
    trendInit 2 7 = some { max_length := none, decay := 2, int_days := 7 } ∧
      ¬((0 : ℝ) < 2 ∧ (2 : ℝ) < 1) :=
  ⟨rfl, by norm_num⟩

/-- Claim C9, amended.  The constructor validates nothing: every decay value,
inside or outside `(0, 1)`, yields a usable configuration object storing that
value. -/
theorem init_never_fails (decay : ℝ) (interval_days : ℤ) :
    trendInit decay interval_days =
      some { max_length := none, decay := decay, int_days := interval_days } :=
  rfl

/-- Claim C10.  For a nonempty history, decay in `[0, 1]` and any observed
window: at every per-point z-score call the argument of `sqrt`
(`sq_avg - avg^2` at the current state) is nonnegative; an empty observed
window returns the defined score `0`; and whenever `std` rounds to `0` the
per-point score is the subtraction fallback, so no division by zero is
performed. -/
theorem rolling_zscore_total (data w : List ℝ) (decay : ℝ)
    (_hne : data ≠ []) (_hnn : ∀ x ∈ data, 0 ≤ x)
    (h0 : 0 ≤ decay) (h1 : decay ≤ 1) :
    (∀ st ∈ observedStates decay
        (histFold decay (data.headI, data.headI ^ 2) data.tail) w, st.1 ^ 2 ≤ st.2) ∧
      rolling_zscore data [] decay = 0 ∧
      ∀ a average s v, pyRound (Real.sqrt (s - a ^ 2)) = 0 →
        calculate_zscore a average s v = v - average := by
  refine ⟨?_, ?_, ?_⟩
  · exact observedStates_inv decay h0 h1 w _
      (histFold_inv decay h0 h1 data.tail _ (le_refl _))
  · simp [rolling_zscore, observedTrends]
  · intro a average s v hstd
    unfold calculate_zscore
    simp only [hstd]
    simp

/-- Witness for claim C10: history `[1]`, window `[2, 3]`, decay `1/2`. -/
theorem rolling_zscore_total_witness :
    (([(1 : ℝ)] ≠ []) ∧ (∀ x ∈ [(1 : ℝ)], 0 ≤ x) ∧ (0 : ℝ) ≤ 1 / 2 ∧ (1 : ℝ) / 2 ≤ 1) ∧
      ((∀ st ∈ observedStates (1 / 2)
          (histFold (1 / 2) (([(1 : ℝ)]).headI, ([(1 : ℝ)]).headI ^ 2)
            ([(1 : ℝ)]).tail) [2, 3], st.1 ^ 2 ≤ st.2) ∧
        rolling_zscore [(1 : ℝ)] [] (1 / 2) = 0 ∧
        ∀ a average s v, pyRound (Real.sqrt (s - a ^ 2)) = 0 →
          calculate_zscore a average s v = v - average) :=
  ⟨⟨by simp, by intro x hx; simp at hx; simp [hx], by norm_num, by norm_num⟩,
    rolling_zscore_total [(1 : ℝ)] [2, 3] (1 / 2) (by simp)
      (by intro x hx; simp at hx; simp [hx]) (by norm_num) (by norm_num)⟩

end Trending
